import Mathlib

/-!
# Verification of the badbit matching-engine core

Shallow embedding of the Rust sources of the badbit spot exchange:

* `src/models.rs`   — `Side`, `Order`, `Trade`
* `src/orderbook.rs` — `OrderBook` and its matching algorithm `process_order`
* `src/account.rs`  — `AccountManager` (per-user/per-asset balances)
* `src/engine.rs`   — the engine actor's message loop (`run_matching_engine`)

Modelling conventions:

* `rust_decimal::Decimal` is modelled by `ℚ` (exact decimal arithmetic; the
  code only uses `+`, `-`, `*`, comparisons and conversion from `u64`).
* `u64`/`u128` quantities, ids and timestamps are modelled by `ℕ`; every
  subtraction performed by the code is guarded (`min` is subtracted), so
  truncated subtraction agrees with the machine subtraction.
* `Uuid` is modelled by `ℕ`.
* `BTreeMap<Decimal, VecDeque<Order>>` is modelled by an association list of
  price levels kept sorted with the best price first (for `asks` the iteration
  the code uses is `keys().next()`, i.e. lowest price; for `bids` it is
  `keys().next_back()`, i.e. highest price).  `VecDeque<Order>` is a `List`
  with the queue front at the head.
* `HashMap`-backed balances with a `(0,0)` default (`get_balance`) are
  modelled by a total function from user and asset to a balance record.
* The wall-clock timestamp obtained inside `process_order` is passed in as an
  explicit `now : ℕ` parameter.
-/

namespace Badbit

/-- `Side` (src/models.rs): direction of an order. -/
inductive Side where
  | Buy
  | Sell
deriving DecidableEq, Repr

/-- `Order` (src/models.rs): id, price (ignored meaningfully only by the
matching conditions), quantity, side, optional owner. -/
structure Order where
  id : ℕ
  price : ℚ
  quantity : ℕ
  side : Side
  user_id : Option ℕ
deriving DecidableEq, Repr

/-- `Trade` (src/models.rs): one fill between a resting maker order and the
incoming taker order. -/
structure Trade where
  maker_id : ℕ
  taker_id : ℕ
  price : ℚ
  quantity : ℕ
  timestamp : ℕ
deriving DecidableEq, Repr

/-- `OrderBook` (src/orderbook.rs): two price-ordered maps of FIFO queues.
`bids` is kept best-first (descending price), `asks` best-first (ascending
price), matching the iteration order the code uses on the `BTreeMap`s. -/
structure OrderBook where
  bids : List (ℚ × List Order)
  asks : List (ℚ × List Order)
deriving DecidableEq, Repr

/-- `OrderBook::new`. -/
def OrderBook.new : OrderBook := ⟨[], []⟩

/-- Inner `while` loop of `OrderBook::process_order`: consume the FIFO queue
`orders_at_price` of one price level while the taker has remaining quantity.
Returns the emitted trades, the taker's remaining quantity and the remaining
queue.  When the maker at the front is only partially filled it is pushed back
to the front of the queue; in that case `match_quantity = tq`, the taker is
exhausted and the loop exits. -/
def fillQueue (taker_id : ℕ) (first_price : ℚ) (now : ℕ) :
    ℕ → List Order → List Trade × ℕ × List Order
  | tq, [] => ([], tq, [])
  | tq, maker_order :: rest =>
    if tq = 0 then ([], tq, maker_order :: rest)
    else
      let match_quantity := min tq maker_order.quantity
      let tr : Trade :=
        { maker_id := maker_order.id, taker_id := taker_id,
          price := first_price, quantity := match_quantity, timestamp := now }
      if maker_order.quantity - match_quantity > 0 then
        ([tr], tq - match_quantity,
          { maker_order with quantity := maker_order.quantity - match_quantity } :: rest)
      else
        let r := fillQueue taker_id first_price now (tq - match_quantity) rest
        (tr :: r.1, r.2.1, r.2.2)

/-- Outer `while` loop of `OrderBook::process_order`: repeatedly look at the
best price level (the head of the best-first level list), stop if the taker is
exhausted or the best price does not cross (`canMatch`), otherwise consume the
level's queue and remove the level once its queue is empty.  When the level's
queue is left nonempty the taker is exhausted and the loop exits. -/
def fillLevels (taker_id : ℕ) (canMatch : ℚ → Bool) (now : ℕ) :
    ℕ → List (ℚ × List Order) → List Trade × ℕ × List (ℚ × List Order)
  | tq, [] => ([], tq, [])
  | tq, (first_price, q) :: rest =>
    if tq = 0 then ([], tq, (first_price, q) :: rest)
    else if canMatch first_price then
      let r := fillQueue taker_id first_price now tq q
      if r.2.2.isEmpty then
        let r2 := fillLevels taker_id canMatch now r.2.1 rest
        (r.1 ++ r2.1, r2.2.1, r2.2.2)
      else
        (r.1, r.2.1, (first_price, r.2.2) :: rest)
    else ([], tq, (first_price, q) :: rest)

/-- `entry(taker_price).or_default().push_back(taker_order)`: append the order
at the tail of its price level, creating the level at its sorted position
(`better` is the best-first order of the level list) if it is absent. -/
def insertLevel (better : ℚ → ℚ → Bool) (price : ℚ) (o : Order) :
    List (ℚ × List Order) → List (ℚ × List Order)
  | [] => [(price, [o])]
  | (p, q) :: rest =>
    if price = p then (p, q ++ [o]) :: rest
    else if better price p then (price, [o]) :: (p, q) :: rest
    else (p, q) :: insertLevel better price o rest

/-- `OrderBook::process_order` (src/orderbook.rs): match the incoming
`taker_order` against the opposite side of the book, then rest any nonzero
remainder on its own side.  Returns the emitted trades and the updated book. -/
def OrderBook.process_order (book : OrderBook) (taker_order : Order) (now : ℕ) :
    List Trade × OrderBook :=
  let taker_price := taker_order.price
  match taker_order.side with
  | Side.Buy =>
    let r := fillLevels taker_order.id (fun p => decide (p ≤ taker_price)) now
      taker_order.quantity book.asks
    let bids' :=
      if r.2.1 > 0 then
        insertLevel (fun a b => decide (b < a)) taker_price
          { taker_order with quantity := r.2.1 } book.bids
      else book.bids
    (r.1, { bids := bids', asks := r.2.2 })
  | Side.Sell =>
    let r := fillLevels taker_order.id (fun p => decide (taker_price ≤ p)) now
      taker_order.quantity book.bids
    let asks' :=
      if r.2.1 > 0 then
        insertLevel (fun a b => decide (a < b)) taker_price
          { taker_order with quantity := r.2.1 } book.asks
      else book.asks
    (r.1, { bids := r.2.2, asks := asks' })

/-! ## Basic facts about the matching loops -/

/-- Total quantity filled by a list of trades. -/
def tradesQty (ts : List Trade) : ℕ := (ts.map Trade.quantity).sum

theorem fillQueue_price (taker_id : ℕ) (first_price : ℚ) (now : ℕ) :
    ∀ (q : List Order) (tq : ℕ) (t : Trade),
      t ∈ (fillQueue taker_id first_price now tq q).1 → t.price = first_price := by
  intro q
  induction q with
  | nil => intro tq t ht; simp [fillQueue] at ht
  | cons m rest ih =>
    intro tq t ht
    simp only [fillQueue] at ht
    split_ifs at ht with h0 hm
    · simp at ht
    · simp at ht; simp [ht]
    · simp at ht
      rcases ht with ht | ht
      · simp [ht]
      · exact ih _ t ht

theorem fillQueue_qty (taker_id : ℕ) (first_price : ℚ) (now : ℕ) :
    ∀ (q : List Order) (tq : ℕ),
      tradesQty (fillQueue taker_id first_price now tq q).1
          = tq - (fillQueue taker_id first_price now tq q).2.1
        ∧ (fillQueue taker_id first_price now tq q).2.1 ≤ tq := by
  intro q
  induction q with
  | nil => intro tq; simp [fillQueue, tradesQty]
  | cons m rest ih =>
    intro tq
    simp only [fillQueue]
    split_ifs with h0 hm
    · simp [tradesQty]
    · simp [tradesQty]
      omega
    · rcases ih (tq - min tq m.quantity) with ⟨ih1, ih2⟩
      simp only [tradesQty, List.map_cons, List.sum_cons]
      constructor
      · simp only [tradesQty] at ih1; omega
      · omega

theorem fillQueue_rest_nonempty (taker_id : ℕ) (first_price : ℚ) (now : ℕ) :
    ∀ (q : List Order) (tq : ℕ),
      (fillQueue taker_id first_price now tq q).2.2 ≠ [] →
      (fillQueue taker_id first_price now tq q).2.1 = 0 := by
  intro q
  induction q with
  | nil => intro tq h; simp [fillQueue] at h
  | cons m rest ih =>
    intro tq h
    simp only [fillQueue] at h ⊢
    split_ifs at h ⊢ with h0 hm
    · exact h0
    · simp only
      omega
    · simp only at h ⊢
      exact ih _ h

theorem fillLevels_price (taker_id : ℕ) (canMatch : ℚ → Bool) (now : ℕ) :
    ∀ (levels : List (ℚ × List Order)) (tq : ℕ) (t : Trade),
      t ∈ (fillLevels taker_id canMatch now tq levels).1 →
      t.price ∈ levels.map Prod.fst ∧ canMatch t.price = true := by
  intro levels
  induction levels with
  | nil => intro tq t ht; simp [fillLevels] at ht
  | cons l rest ih =>
    intro tq t ht
    obtain ⟨p, q⟩ := l
    simp only [fillLevels] at ht
    split_ifs at ht with h0 hc hq
    · simp at ht
    · simp at ht
      rcases ht with ht | ht
      · have := fillQueue_price taker_id p now q tq t ht
        simp [this, hc]
      · rcases ih _ t ht with ⟨h1, h2⟩
        simp [h1, h2]
    · have := fillQueue_price taker_id p now q tq t ht
      simp [this, hc]
    · simp at ht

theorem fillLevels_qty (taker_id : ℕ) (canMatch : ℚ → Bool) (now : ℕ) :
    ∀ (levels : List (ℚ × List Order)) (tq : ℕ),
      tradesQty (fillLevels taker_id canMatch now tq levels).1
          = tq - (fillLevels taker_id canMatch now tq levels).2.1
        ∧ (fillLevels taker_id canMatch now tq levels).2.1 ≤ tq := by
  intro levels
  induction levels with
  | nil => intro tq; simp [fillLevels, tradesQty]
  | cons l rest ih =>
    intro tq
    obtain ⟨p, q⟩ := l
    simp only [fillLevels]
    split_ifs with h0 hc hq
    · simp [tradesQty]
    · rcases fillQueue_qty taker_id p now q tq with ⟨hq1, hq2⟩
      rcases ih (fillQueue taker_id p now tq q).2.1 with ⟨ih1, ih2⟩
      simp only [tradesQty, List.map_append, List.sum_append]
      simp only [tradesQty] at hq1 ih1
      constructor
      · omega
      · omega
    · rcases fillQueue_qty taker_id p now q tq with ⟨hq1, hq2⟩
      exact ⟨hq1, hq2⟩
    · simp [tradesQty]

/-! ## Price-time priority: a flat reference description of matching

`matchableOrders` and `consumeOrders` follow the spec's words (§4.1): take the
matchable price levels best price first, the earliest resting order within a
level first, fill `min(remaining taker, remaining maker)` per maker and emit
one trade per maker reached, at the maker's level price. -/

/-- The book side's resting orders that the incoming order can match, flattened
best level first and FIFO within a level, each paired with its level price. -/
def matchableOrders (canMatch : ℚ → Bool) (levels : List (ℚ × List Order)) :
    List (ℚ × Order) :=
  (levels.takeWhile (fun l => canMatch l.1)).flatMap (fun l => l.2.map (fun o => (l.1, o)))

/-- Sequential consumption: one trade per maker order reached while the taker
has remaining quantity, each fill being the min of the remaining quantities. -/
def consumeOrders (taker_id : ℕ) (now : ℕ) :
    ℕ → List (ℚ × Order) → List Trade × ℕ
  | tq, [] => ([], tq)
  | tq, (p, m) :: rest =>
    if tq = 0 then ([], tq)
    else
      let r := consumeOrders taker_id now (tq - min tq m.quantity) rest
      (⟨m.id, taker_id, p, min tq m.quantity, now⟩ :: r.1, r.2)

theorem consumeOrders_zero (taker_id now : ℕ) :
    ∀ l : List (ℚ × Order), consumeOrders taker_id now 0 l = ([], 0) := by
  intro l
  cases l with
  | nil => simp [consumeOrders]
  | cons a rest => obtain ⟨p, m⟩ := a; simp [consumeOrders]

theorem consumeOrders_append (taker_id now : ℕ) :
    ∀ (l1 l2 : List (ℚ × Order)) (tq : ℕ),
      consumeOrders taker_id now tq (l1 ++ l2)
        = ((consumeOrders taker_id now tq l1).1
              ++ (consumeOrders taker_id now (consumeOrders taker_id now tq l1).2 l2).1,
           (consumeOrders taker_id now (consumeOrders taker_id now tq l1).2 l2).2) := by
  intro l1
  induction l1 with
  | nil => intro l2 tq; simp [consumeOrders]
  | cons a rest ih =>
    intro l2 tq
    obtain ⟨p, m⟩ := a
    by_cases h0 : tq = 0
    · subst h0
      simp [consumeOrders, consumeOrders_zero]
    · simp only [List.cons_append, consumeOrders, if_neg h0]
      simp only [List.append_eq, ih]

theorem fillQueue_consume (taker_id : ℕ) (p : ℚ) (now : ℕ) :
    ∀ (q : List Order) (tq : ℕ),
      (fillQueue taker_id p now tq q).1
          = (consumeOrders taker_id now tq (q.map (fun o => (p, o)))).1
        ∧ (fillQueue taker_id p now tq q).2.1
          = (consumeOrders taker_id now tq (q.map (fun o => (p, o)))).2 := by
  intro q
  induction q with
  | nil => intro tq; simp [fillQueue, consumeOrders]
  | cons m rest ih =>
    intro tq
    by_cases h0 : tq = 0
    · subst h0
      simp [fillQueue, consumeOrders_zero]
    · simp only [fillQueue, List.map_cons, consumeOrders, if_neg h0]
      split_ifs with hm
      · have hmin : min tq m.quantity = tq := by omega
        simp [hmin, Nat.sub_self, consumeOrders_zero]
      · rcases ih (tq - min tq m.quantity) with ⟨ih1, ih2⟩
        simp [ih1, ih2]

theorem fillLevels_consume (taker_id : ℕ) (canMatch : ℚ → Bool) (now : ℕ) :
    ∀ (levels : List (ℚ × List Order)) (tq : ℕ),
      (fillLevels taker_id canMatch now tq levels).1
          = (consumeOrders taker_id now tq (matchableOrders canMatch levels)).1
        ∧ (fillLevels taker_id canMatch now tq levels).2.1
          = (consumeOrders taker_id now tq (matchableOrders canMatch levels)).2 := by
  intro levels
  induction levels with
  | nil => intro tq; simp [fillLevels, matchableOrders, consumeOrders]
  | cons l rest ih =>
    intro tq
    obtain ⟨p, q⟩ := l
    by_cases h0 : tq = 0
    · subst h0
      simp [fillLevels, consumeOrders_zero]
    by_cases hc : canMatch p
    · have hmo : matchableOrders canMatch ((p, q) :: rest)
          = q.map (fun o => (p, o)) ++ matchableOrders canMatch rest := by
        simp [matchableOrders, List.takeWhile, hc]
      simp only [fillLevels, if_neg h0, hc, if_true, hmo, consumeOrders_append]
      rcases fillQueue_consume taker_id p now q tq with ⟨hq1, hq2⟩
      by_cases hqe : (fillQueue taker_id p now tq q).2.2.isEmpty
      · simp only [hqe, if_true]
        rcases ih (fillQueue taker_id p now tq q).2.1 with ⟨ih1, ih2⟩
        constructor
        · simp only [hq1, ← hq2, ih1]
        · simp only [← hq2, ih2]
      · simp only [hqe, if_false]
        have hne : (fillQueue taker_id p now tq q).2.2 ≠ [] := by
          simpa [List.isEmpty_iff] using hqe
        have h0' := fillQueue_rest_nonempty taker_id p now q tq hne
        have hc0 : (consumeOrders taker_id now tq (q.map (fun o => (p, o)))).2 = 0 := by
          rw [← hq2]; exact h0'
        simp [hq1, hc0, consumeOrders_zero, h0']
    · have hmo : matchableOrders canMatch ((p, q) :: rest) = [] := by
        simp [matchableOrders, List.takeWhile, hc]
      simp [fillLevels, if_neg h0, hc, hmo, consumeOrders]

/-- The trade prices of a sequential consumption are an initial segment of the
level prices of the consumed list. -/
theorem consumeOrders_prices (taker_id now : ℕ) :
    ∀ (l : List (ℚ × Order)) (tq : ℕ),
      (consumeOrders taker_id now tq l).1.map Trade.price
        = (l.map Prod.fst).take ((consumeOrders taker_id now tq l).1.length) := by
  intro l
  induction l with
  | nil => intro tq; simp [consumeOrders]
  | cons a rest ih =>
    intro tq
    obtain ⟨p, m⟩ := a
    by_cases h0 : tq = 0
    · subst h0; simp [consumeOrders]
    · simp only [consumeOrders, if_neg h0, List.map_cons, List.length_cons, List.take_succ_cons]
      rw [ih]

theorem matchableOrders_fst_subset (canMatch : ℚ → Bool) :
    ∀ levels : List (ℚ × List Order),
      ∀ x ∈ (matchableOrders canMatch levels).map Prod.fst, x ∈ levels.map Prod.fst := by
  intro levels
  induction levels with
  | nil => intro x hx; simp [matchableOrders] at hx
  | cons l rest ih =>
    intro x hx
    obtain ⟨p, q⟩ := l
    by_cases hc : canMatch p
    · have : matchableOrders canMatch ((p, q) :: rest)
          = q.map (fun o => (p, o)) ++ matchableOrders canMatch rest := by
        simp [matchableOrders, List.takeWhile, hc]
      rw [this] at hx
      simp only [List.map_append, List.mem_append] at hx
      rcases hx with hx | hx
      · simp only [List.map_map, List.mem_map] at hx
        obtain ⟨o, _, rfl⟩ := hx
        simp
      · have := ih x hx
        simp [this]
    · have : matchableOrders canMatch ((p, q) :: rest) = [] := by
        simp [matchableOrders, List.takeWhile, hc]
      rw [this] at hx
      simp at hx

theorem matchableOrders_fst_pairwise (canMatch : ℚ → Bool)
    (R : ℚ → ℚ → Prop) (hrefl : ∀ x, R x x) :
    ∀ levels : List (ℚ × List Order),
      (levels.map Prod.fst).Pairwise R →
      ((matchableOrders canMatch levels).map Prod.fst).Pairwise R := by
  intro levels
  induction levels with
  | nil => intro _; simp [matchableOrders]
  | cons l rest ih =>
    intro hp
    obtain ⟨p, q⟩ := l
    simp only [List.map_cons, List.pairwise_cons] at hp
    obtain ⟨hhead, htail⟩ := hp
    by_cases hc : canMatch p
    · have : matchableOrders canMatch ((p, q) :: rest)
          = q.map (fun o => (p, o)) ++ matchableOrders canMatch rest := by
        simp [matchableOrders, List.takeWhile, hc]
      rw [this, List.map_append, List.pairwise_append]
      refine ⟨?_, ih htail, ?_⟩
      · rw [List.map_map]
        refine List.pairwise_map.mpr ?_
        have hconst : ∀ l : List Order, List.Pairwise (fun _ _ : Order => R p p) l := by
          intro l
          induction l with
          | nil => exact List.Pairwise.nil
          | cons a t iht => exact List.Pairwise.cons (fun _ _ => hrefl p) iht
        exact hconst q
      · intro x hx y hy
        simp only [List.map_map, List.mem_map] at hx
        obtain ⟨o, _, rfl⟩ := hx
        exact hhead y (matchableOrders_fst_subset canMatch rest y hy)
    · have : matchableOrders canMatch ((p, q) :: rest) = [] := by
        simp [matchableOrders, List.takeWhile, hc]
      simp [this]

/-- As `fillQueue_price`, with the trade's maker tracked: every trade the
inner loop emits carries this level's price and the id of an order resting in
this level's queue. -/
theorem fillQueue_maker (taker_id : ℕ) (first_price : ℚ) (now : ℕ) :
    ∀ (q : List Order) (tq : ℕ) (t : Trade),
      t ∈ (fillQueue taker_id first_price now tq q).1 →
      t.price = first_price ∧ ∃ m ∈ q, m.id = t.maker_id := by
  intro q
  induction q with
  | nil => intro tq t ht; simp [fillQueue] at ht
  | cons m rest ih =>
    intro tq t ht
    simp only [fillQueue] at ht
    split_ifs at ht with h0 hm
    · simp at ht
    · simp at ht
      refine ⟨by simp [ht], m, by simp, by simp [ht]⟩
    · simp at ht
      rcases ht with ht | ht
      · refine ⟨by simp [ht], m, by simp, by simp [ht]⟩
      · rcases ih _ t ht with ⟨hp, m', hm', hid⟩
        exact ⟨hp, m', by simp [hm'], hid⟩

/-- As `fillLevels_price`, with the trade's maker tracked: every trade the
outer loop emits carries the price of the level its own maker was resting
in. -/
theorem fillLevels_maker (taker_id : ℕ) (canMatch : ℚ → Bool) (now : ℕ) :
    ∀ (levels : List (ℚ × List Order)) (tq : ℕ) (t : Trade),
      t ∈ (fillLevels taker_id canMatch now tq levels).1 →
      ∃ pq ∈ levels, t.price = pq.1 ∧ ∃ m ∈ pq.2, m.id = t.maker_id := by
  intro levels
  induction levels with
  | nil => intro tq t ht; simp [fillLevels] at ht
  | cons l rest ih =>
    intro tq t ht
    obtain ⟨p, q⟩ := l
    simp only [fillLevels] at ht
    split_ifs at ht with h0 hc hq
    · simp at ht
    · simp at ht
      rcases ht with ht | ht
      · rcases fillQueue_maker taker_id p now q tq t ht with ⟨hp, m, hm, hid⟩
        exact ⟨(p, q), by simp, hp, m, hm, hid⟩
      · rcases ih _ t ht with ⟨pq, hpq, hrest⟩
        exact ⟨pq, by simp [hpq], hrest⟩
    · rcases fillQueue_maker taker_id p now q tq t ht with ⟨hp, m, hm, hid⟩
      exact ⟨(p, q), by simp, hp, m, hm, hid⟩
    · simp at ht

/-! ## Claims about the order book -/

/-- C1: every trade emitted by `OrderBook.process_order` is priced at the
level of its own maker: the pre-call opposite side of the book has a price
level `pq` such that the trade's price equals `pq`'s price and an order with
the trade's `maker_id` rests in `pq`'s queue — so the price is the maker's
resting price, never the taker's requested price unless the two coincide;
and concretely, a resting sell `10@90` hit by an incoming limit buy `10@100`
produces exactly one trade at price `90` and leaves both sides of the book
empty. -/
theorem claim_C1_maker_price_execution :
    (∀ (book : OrderBook) (o : Order) (now : ℕ) (t : Trade),
        t ∈ (book.process_order o now).1 →
        ∃ pq ∈ (match o.side with
          | Side.Buy => book.asks
          | Side.Sell => book.bids),
          t.price = pq.1 ∧ ∃ m ∈ pq.2, m.id = t.maker_id) ∧
    (OrderBook.process_order ⟨[], [(90, [⟨1, 90, 10, Side.Sell, none⟩])]⟩
        ⟨2, 100, 10, Side.Buy, none⟩ 5
      = ([⟨1, 2, 90, 10, 5⟩], ⟨[], []⟩)) := by
  constructor
  · intro book o now t ht
    cases ho : o.side
    · simp only [OrderBook.process_order, ho] at ht
      simpa using fillLevels_maker o.id _ now book.asks o.quantity t ht
    · simp only [OrderBook.process_order, ho] at ht
      simpa using fillLevels_maker o.id _ now book.bids o.quantity t ht
  · norm_num [OrderBook.process_order, fillLevels, fillQueue]

/-- Witness for C1 at the concrete scenario of the claim: the trade emitted
against the resting sell `10@90` is priced at the level its maker (order 1)
was resting in. -/
theorem claim_C1_maker_price_execution_witness :
    ∃ pq ∈ (OrderBook.mk [] [(90, [⟨1, 90, 10, Side.Sell, none⟩])]).asks,
      (⟨1, 2, 90, 10, 5⟩ : Trade).price = pq.1
        ∧ ∃ m ∈ pq.2, m.id = (⟨1, 2, 90, 10, 5⟩ : Trade).maker_id := by
  have hmem : (⟨1, 2, 90, 10, 5⟩ : Trade)
      ∈ ((OrderBook.mk [] [(90, [⟨1, 90, 10, Side.Sell, none⟩])]).process_order
          ⟨2, 100, 10, Side.Buy, none⟩ 5).1 := by
    norm_num [OrderBook.process_order, fillLevels, fillQueue]
  have h := claim_C1_maker_price_execution.1
    (OrderBook.mk [] [(90, [⟨1, 90, 10, Side.Sell, none⟩])])
    ⟨2, 100, 10, Side.Buy, none⟩ 5 ⟨1, 2, 90, 10, 5⟩ hmem
  exact h

/-- C2: within one `process_order` call the emitted trades are exactly the
sequential consumption of the opposite side's matchable resting orders, taken
level by level in the book's best-first iteration order and FIFO within a
level, one trade per maker order reached with fill quantity
`min(remaining taker, remaining maker)` at the maker's level price
(`consumeOrders` / `matchableOrders`); and when the side's levels are sorted
best price first, the trade prices are monotone: non-decreasing for a buy
(lowest ask consumed first), non-increasing for a sell (highest bid first). -/
theorem claim_C2_price_time_priority :
    (∀ (book : OrderBook) (o : Order) (now : ℕ),
      (book.process_order o now).1
        = (consumeOrders o.id now o.quantity
            (match o.side with
             | Side.Buy => matchableOrders (fun p => decide (p ≤ o.price)) book.asks
             | Side.Sell => matchableOrders (fun p => decide (o.price ≤ p)) book.bids)).1) ∧
    (∀ (book : OrderBook) (o : Order) (now : ℕ),
      (o.side = Side.Buy → (book.asks.map Prod.fst).Pairwise (· ≤ ·) →
        ((book.process_order o now).1.map Trade.price).Pairwise (· ≤ ·)) ∧
      (o.side = Side.Sell → (book.bids.map Prod.fst).Pairwise (· ≥ ·) →
        ((book.process_order o now).1.map Trade.price).Pairwise (· ≥ ·))) := by
  have key : ∀ (book : OrderBook) (o : Order) (now : ℕ),
      (book.process_order o now).1
        = (consumeOrders o.id now o.quantity
            (match o.side with
             | Side.Buy => matchableOrders (fun p => decide (p ≤ o.price)) book.asks
             | Side.Sell => matchableOrders (fun p => decide (o.price ≤ p)) book.bids)).1 := by
    intro book o now
    cases ho : o.side
    · simp only [OrderBook.process_order, ho]
      exact (fillLevels_consume o.id _ now book.asks o.quantity).1
    · simp only [OrderBook.process_order, ho]
      exact (fillLevels_consume o.id _ now book.bids o.quantity).1
  refine ⟨key, ?_⟩
  intro book o now
  constructor
  · intro ho hpw
    rw [key book o now]
    simp only [ho]
    rw [consumeOrders_prices]
    exact List.Pairwise.sublist (List.take_sublist _ _)
      (matchableOrders_fst_pairwise _ (· ≤ ·) (fun x => le_refl x) book.asks hpw)
  · intro ho hpw
    rw [key book o now]
    simp only [ho]
    rw [consumeOrders_prices]
    exact List.Pairwise.sublist (List.take_sublist _ _)
      (matchableOrders_fst_pairwise _ (· ≥ ·) (fun x => le_refl x) book.bids hpw)

/-- Witness for C2 at the spec's price-time example: asks `10@100` (id 1,
first) and `10@101` (id 2, second), incoming buy `15@101`; trade prices are
non-decreasing. -/
theorem claim_C2_price_time_priority_witness :
    ((((OrderBook.mk [] [(100, [⟨1, 100, 10, Side.Sell, none⟩]),
          (101, [⟨2, 101, 10, Side.Sell, none⟩])]).process_order
        ⟨3, 101, 15, Side.Buy, none⟩ 7).1.map Trade.price).Pairwise (· ≤ ·)) := by
  refine (claim_C2_price_time_priority.2
    (OrderBook.mk [] [(100, [⟨1, 100, 10, Side.Sell, none⟩]),
      (101, [⟨2, 101, 10, Side.Sell, none⟩])])
    ⟨3, 101, 15, Side.Buy, none⟩ 7).1 rfl ?_
  norm_num

/-- C6: FIFO within a price level is preserved across a partial fill: if the
best matchable level of the opposite side has head order `m` and the incoming
order's quantity is positive and smaller than `m.quantity`, exactly one trade
fills the head; the head stays at the front with only its quantity reduced,
every order behind it — and every other level, and the order's own side — is
unchanged.  Stated for an incoming buy against the best ask level and for an
incoming sell against the best bid level. -/
theorem claim_C6_fifo_head_only_fill :
    (∀ (p : ℚ) (m : Order) (restQ : List Order)
        (restLevels bids : List (ℚ × List Order)) (o : Order) (now : ℕ),
      o.side = Side.Buy → p ≤ o.price → 0 < o.quantity → o.quantity < m.quantity →
      OrderBook.process_order ⟨bids, (p, m :: restQ) :: restLevels⟩ o now
        = ([⟨m.id, o.id, p, o.quantity, now⟩],
           ⟨bids, (p, { m with quantity := m.quantity - o.quantity } :: restQ)
              :: restLevels⟩)) ∧
    (∀ (p : ℚ) (m : Order) (restQ : List Order)
        (restLevels asks : List (ℚ × List Order)) (o : Order) (now : ℕ),
      o.side = Side.Sell → o.price ≤ p → 0 < o.quantity → o.quantity < m.quantity →
      OrderBook.process_order ⟨(p, m :: restQ) :: restLevels, asks⟩ o now
        = ([⟨m.id, o.id, p, o.quantity, now⟩],
           ⟨(p, { m with quantity := m.quantity - o.quantity } :: restQ)
              :: restLevels, asks⟩)) := by
  constructor
  · intro p m restQ restLevels bids o now ho hp h0 hlt
    have hmin : min o.quantity m.quantity = o.quantity := Nat.min_eq_left (Nat.le_of_lt hlt)
    have hq0 : ¬ o.quantity = 0 := by omega
    have hgt : m.quantity - o.quantity > 0 := by omega
    simp only [OrderBook.process_order, ho]
    simp only [fillLevels, fillQueue, hmin, if_neg hq0]
    simp [hp, hgt]
  · intro p m restQ restLevels asks o now ho hp h0 hlt
    have hmin : min o.quantity m.quantity = o.quantity := Nat.min_eq_left (Nat.le_of_lt hlt)
    have hq0 : ¬ o.quantity = 0 := by omega
    have hgt : m.quantity - o.quantity > 0 := by omega
    simp only [OrderBook.process_order, ho]
    simp only [fillLevels, fillQueue, hmin, if_neg hq0]
    simp [hp, hgt]

/-- Witness for C6 at the spec's scenario: two resting sells `10@100` (ids 1
and 2), incoming buy `4@100`; the head is reduced to 6, the tail order is
untouched in place. -/
theorem claim_C6_fifo_head_only_fill_witness :
    OrderBook.process_order
        ⟨[], [(100, [⟨1, 100, 10, Side.Sell, none⟩, ⟨2, 100, 10, Side.Sell, none⟩])]⟩
        ⟨3, 100, 4, Side.Buy, none⟩ 7
      = ([⟨1, 3, 100, 4, 7⟩],
         ⟨[], [(100, [⟨1, 100, 6, Side.Sell, none⟩, ⟨2, 100, 10, Side.Sell, none⟩])]⟩) := by
  have h := claim_C6_fifo_head_only_fill.1 100 ⟨1, 100, 10, Side.Sell, none⟩
    [⟨2, 100, 10, Side.Sell, none⟩] [] [] ⟨3, 100, 4, Side.Buy, none⟩ 7
    rfl (by norm_num) (by norm_num) (by norm_num)
  simpa using h

/-! ## The backend library's order book (market orders)

The backend binary (`backend/src/main.rs`) links a library crate
`rust_matching_engine` whose `orderbook.rs`/`models.rs` support an
`order_type` field with `Limit`/`Market`; that library's matching source is
not part of the repository snapshot — only its declaration
(`backend/src/models.rs`), its callers and its tests
(`backend/tests/market_order_test.rs`) are.  The market-order behaviour is
therefore modelled from the spec (§4.1). -/

namespace Backend

/-- `OrderType` (backend/src/models.rs): limit or market order. -/
inductive OrderType where
  | Limit
  | Market
deriving DecidableEq, Repr

/-- `Order` (backend/src/models.rs): the core order plus `order_type`; a
market order carries a sentinel price that the matching conditions ignore. -/
structure Order where
  id : ℕ
  price : ℚ
  quantity : ℕ
  side : Side
  user_id : Option ℕ
  order_type : OrderType
deriving DecidableEq, Repr

/-- The backend book: price levels of backend orders, best price first per
side as in the core book. -/
structure OrderBook where
  bids : List (ℚ × List Order)
  asks : List (ℚ × List Order)
deriving DecidableEq, Repr

/-- Inner matching loop over one level's FIFO queue, as in the core book. -/
def fillQueue (taker_id : ℕ) (first_price : ℚ) (now : ℕ) :
    ℕ → List Order → List Trade × ℕ × List Order
  | tq, [] => ([], tq, [])
  | tq, maker_order :: rest =>
    if tq = 0 then ([], tq, maker_order :: rest)
    else if maker_order.quantity - min tq maker_order.quantity > 0 then
      ([⟨maker_order.id, taker_id, first_price, min tq maker_order.quantity, now⟩],
        tq - min tq maker_order.quantity,
        { maker_order with quantity := maker_order.quantity - min tq maker_order.quantity }
          :: rest)
    else
      let r := fillQueue taker_id first_price now (tq - min tq maker_order.quantity) rest
      (⟨maker_order.id, taker_id, first_price, min tq maker_order.quantity, now⟩ :: r.1,
        r.2.1, r.2.2)

/-- Outer matching loop over the best-first price levels, as in the core
book. -/
def fillLevels (taker_id : ℕ) (canMatch : ℚ → Bool) (now : ℕ) :
    ℕ → List (ℚ × List Order) → List Trade × ℕ × List (ℚ × List Order)
  | tq, [] => ([], tq, [])
  | tq, (first_price, q) :: rest =>
    if tq = 0 then ([], tq, (first_price, q) :: rest)
    else if canMatch first_price then
      let r := fillQueue taker_id first_price now tq q
      if r.2.2.isEmpty then
        let r2 := fillLevels taker_id canMatch now r.2.1 rest
        (r.1 ++ r2.1, r2.2.1, r2.2.2)
      else
        (r.1, r.2.1, (first_price, r.2.2) :: rest)
    else ([], tq, (first_price, q) :: rest)

/-- Append a resting order at the tail of its price level. -/
def insertLevel (better : ℚ → ℚ → Bool) (price : ℚ) (o : Order) :
    List (ℚ × List Order) → List (ℚ × List Order)
  | [] => [(price, [o])]
  | (p, q) :: rest =>
    if price = p then (p, q ++ [o]) :: rest
    else if better price p then (price, [o]) :: (p, q) :: rest
    else (p, q) :: insertLevel better price o rest

/-- Modelled from the spec: `OrderBook::process_order` of the missing backend
library crate `rust_matching_engine::orderbook`.  Per spec §4.1, it extends
the core algorithm in two places: a price level crosses when it satisfies the
limit "or the order is a market order", and after liquidity is exhausted "a
limit order's nonzero remainder is inserted at the tail of its own price
level; a market order's remainder is simply discarded".  This agrees with
`backend/tests/market_order_test.rs` and `backend/tests/orderbook_test.rs`. -/
def OrderBook.process_order (book : OrderBook) (taker_order : Order) (now : ℕ) :
    List Trade × OrderBook :=
  let taker_price := taker_order.price
  let isMarket := taker_order.order_type = OrderType.Market
  match taker_order.side with
  | Side.Buy =>
    let r := fillLevels taker_order.id
      (fun p => decide isMarket || decide (p ≤ taker_price)) now
      taker_order.quantity book.asks
    let bids' :=
      if taker_order.order_type = OrderType.Limit ∧ 0 < r.2.1 then
        insertLevel (fun a b => decide (b < a)) taker_price
          { taker_order with quantity := r.2.1 } book.bids
      else book.bids
    (r.1, { bids := bids', asks := r.2.2 })
  | Side.Sell =>
    let r := fillLevels taker_order.id
      (fun p => decide isMarket || decide (taker_price ≤ p)) now
      taker_order.quantity book.bids
    let asks' :=
      if taker_order.order_type = OrderType.Limit ∧ 0 < r.2.1 then
        insertLevel (fun a b => decide (a < b)) taker_price
          { taker_order with quantity := r.2.1 } book.asks
      else book.asks
    (r.1, { bids := r.2.2, asks := asks' })

end Backend

/-- C3: a market order never rests: whatever it matched, the taker's own side
of the book is left exactly as it was (any nonzero remainder is discarded),
and a market buy of any quantity against an empty book yields zero trades and
leaves both book sides empty. -/
theorem claim_C3_market_never_rests :
    (∀ (book : Backend.OrderBook) (o : Backend.Order) (now : ℕ),
      o.order_type = Backend.OrderType.Market →
        (o.side = Side.Buy →
          (Backend.OrderBook.process_order book o now).2.bids = book.bids) ∧
        (o.side = Side.Sell →
          (Backend.OrderBook.process_order book o now).2.asks = book.asks)) ∧
    (∀ (qty now : ℕ),
      Backend.OrderBook.process_order ⟨[], []⟩
          ⟨1, 0, qty, Side.Buy, none, Backend.OrderType.Market⟩ now
        = ([], ⟨[], []⟩)) := by
  constructor
  · intro book o now hm
    constructor
    · intro hs
      simp [Backend.OrderBook.process_order, hs, hm]
    · intro hs
      simp [Backend.OrderBook.process_order, hs, hm]
  · intro qty now
    simp [Backend.OrderBook.process_order, Backend.fillLevels]

/-- Witness for C3: a market buy of 15 sweeping two ask levels still leaves
the bid side (its own side) empty. -/
theorem claim_C3_market_never_rests_witness :
    (Backend.OrderBook.process_order
        ⟨[], [(100, [⟨1, 100, 10, Side.Sell, none, Backend.OrderType.Limit⟩]),
              (101, [⟨2, 101, 10, Side.Sell, none, Backend.OrderType.Limit⟩])]⟩
        ⟨3, 0, 15, Side.Buy, none, Backend.OrderType.Market⟩ 7).2.bids = [] := by
  have h := (claim_C3_market_never_rests.1
    ⟨[], [(100, [⟨1, 100, 10, Side.Sell, none, Backend.OrderType.Limit⟩]),
          (101, [⟨2, 101, 10, Side.Sell, none, Backend.OrderType.Limit⟩])]⟩
    ⟨3, 0, 15, Side.Buy, none, Backend.OrderType.Market⟩ 7 rfl).1 rfl
  exact h

/-! ## AccountManager (src/account.rs) -/

/-- `UserBalance` (src/account.rs). -/
structure UserBalance where
  available : ℚ
  locked : ℚ
deriving DecidableEq, Repr

/-- `UserBalance::default()`. -/
def UserBalance.default : UserBalance := ⟨0, 0⟩

/-- `AccountManager` (src/account.rs):
`HashMap<Uuid, HashMap<String, UserBalance>>` modelled as a total map with the
`(0,0)` default that both `get_balance` and `entry(..).or_default()`
provide. -/
structure AccountManager where
  balances : ℕ → String → UserBalance

/-- `AccountManager::new`. -/
def AccountManager.new : AccountManager := ⟨fun _ _ => UserBalance.default⟩

/-- Point update of one (user, asset) entry. -/
def AccountManager.setBalance (am : AccountManager) (user_id : ℕ) (asset : String)
    (b : UserBalance) : AccountManager :=
  ⟨fun u a => if u = user_id ∧ a = asset then b else am.balances u a⟩

/-- `AccountManager::get_balance`: `(available, locked)`, defaulting to
`(0, 0)` for an unknown pair. -/
def AccountManager.get_balance (am : AccountManager) (user_id : ℕ) (asset : String) :
    ℚ × ℚ :=
  ((am.balances user_id asset).available, (am.balances user_id asset).locked)

/-- `AccountManager::load_balance` (startup). -/
def AccountManager.load_balance (am : AccountManager) (user_id : ℕ) (asset : String)
    (available locked : ℚ) : AccountManager :=
  am.setBalance user_id asset ⟨available, locked⟩

/-- Asset committed by an order: quote (USDC) for a buy, base (BAD) for a
sell. -/
def lockAsset : Side → String
  | Side.Buy => "USDC"
  | Side.Sell => "BAD"

/-- Amount committed by an order: `price * quantity` USDC for a buy,
`quantity` BAD for a sell. -/
def lockAmount (side : Side) (price : ℚ) (quantity : ℕ) : ℚ :=
  match side with
  | Side.Buy => price * (quantity : ℚ)
  | Side.Sell => (quantity : ℚ)

/-- `AccountManager::try_lock_balance`: fails with no mutation when
`available < amount_to_lock`, otherwise moves the amount from available to
locked. -/
def AccountManager.try_lock_balance (am : AccountManager) (user_id : ℕ) (side : Side)
    (price : ℚ) (quantity : ℕ) : Except String AccountManager :=
  let asset := lockAsset side
  let amount_to_lock := lockAmount side price quantity
  let balance := am.balances user_id asset
  if balance.available < amount_to_lock then
    Except.error "insufficient balance"
  else
    Except.ok (am.setBalance user_id asset
      ⟨balance.available - amount_to_lock, balance.locked + amount_to_lock⟩)

/-- `AccountManager::on_trade_match`: settle one fill for the given user at
the trade's price and quantity.  Buy consumes locked USDC (`trade_value`) and
credits BAD available; Sell consumes locked BAD (`quantity`) and credits USDC
available (`trade_value`). -/
def AccountManager.on_trade_match (am : AccountManager) (user_id : ℕ) (side : Side)
    (price : ℚ) (quantity : ℕ) : AccountManager :=
  let trade_value := price * (quantity : ℚ)
  match side with
  | Side.Buy =>
    let usdc := am.balances user_id "USDC"
    let am1 := am.setBalance user_id "USDC" ⟨usdc.available, usdc.locked - trade_value⟩
    let bad := am1.balances user_id "BAD"
    am1.setBalance user_id "BAD" ⟨bad.available + (quantity : ℚ), bad.locked⟩
  | Side.Sell =>
    let bad := am.balances user_id "BAD"
    let am1 := am.setBalance user_id "BAD" ⟨bad.available, bad.locked - (quantity : ℚ)⟩
    let usdc := am1.balances user_id "USDC"
    am1.setBalance user_id "USDC" ⟨usdc.available + trade_value, usdc.locked⟩

/-! ## Engine actor (src/engine.rs) -/

/-- `DbMessage`: persistence intents sent to the DB writer.  The enum is part
of the `db` module's interface; its variants and fields are exactly those
constructed in `src/engine.rs`. -/
inductive DbMessage where
  | UpdateBalance (user_id : ℕ) (asset : String) (available locked : ℚ)
  | SaveTrade (maker_order_id taker_order_id : ℕ) (price : ℚ) (quantity : ℕ)
      (timestamp : ℕ) (user_id : Option ℕ)
deriving DecidableEq, Repr

/-- `EngineMessage` (src/engine.rs), with the one-shot reply channels
dropped. -/
inductive EngineMessage where
  | PlaceOrder (order : Order)
  | GetOrderBook
  | GetTrades
deriving DecidableEq, Repr

/-- A value sent back on a message's one-shot reply channel. -/
inductive Reply where
  | trades (ts : List Trade)
  | book (b : OrderBook)
deriving DecidableEq, Repr

/-- The engine actor's private state (the locals of `run_matching_engine`
together with the account manager it owns). -/
structure EngineState where
  orderbook : OrderBook
  trades_history : List Trade
  account_manager : AccountManager

/-- State at actor startup: fresh book, empty history, loaded accounts. -/
def EngineState.init (am : AccountManager) : EngineState := ⟨OrderBook.new, [], am⟩

/-- End-of-iteration trim (src/engine.rs):
`if trades_history.len() > 5000 { trades_history.drain(0..len - 2000) }`
keeps the most recent 2000 trades. -/
def trimHistory (h : List Trade) : List Trade :=
  if h.length > 5000 then h.drop (h.length - 2000) else h

/-- Settlement loop of `run_matching_engine`: `on_trade_match` for the taker
on every produced trade, in order. -/
def settleTrades (am : AccountManager) (uid : ℕ) (side : Side) :
    List Trade → AccountManager
  | [] => am
  | t :: ts => settleTrades (am.on_trade_match uid side t.price t.quantity) uid side ts

/-- One iteration of the actor loop of `run_matching_engine`: process one
mailbox message, producing the value replied on the one-shot channel, the
successor state, and the persistence intents sent to the DB writer, in
emission order.  The end-of-iteration history trim is part of the iteration;
the rejected-order path leaves the loop body early (`continue`), skipping
it. -/
def engineStep (st : EngineState) (msg : EngineMessage) (now : ℕ) :
    Reply × EngineState × List DbMessage :=
  match msg with
  | EngineMessage.PlaceOrder order =>
    match order.user_id with
    | some uid =>
      match st.account_manager.try_lock_balance uid order.side order.price order.quantity with
      | Except.error _ => (Reply.trades [], st, [])
      | Except.ok am1 =>
        let lockBal := am1.get_balance uid (lockAsset order.side)
        let r := st.orderbook.process_order order now
        let am2 := settleTrades am1 uid order.side r.1
        let saveMsgs := r.1.map (fun t =>
          DbMessage.SaveTrade t.maker_id t.taker_id t.price t.quantity t.timestamp (some uid))
        let usdc := am2.get_balance uid "USDC"
        let bad := am2.get_balance uid "BAD"
        (Reply.trades r.1,
         ⟨r.2, trimHistory (st.trades_history ++ r.1), am2⟩,
         DbMessage.UpdateBalance uid (lockAsset order.side) lockBal.1 lockBal.2
           :: (saveMsgs
              ++ [DbMessage.UpdateBalance uid "USDC" usdc.1 usdc.2,
                  DbMessage.UpdateBalance uid "BAD" bad.1 bad.2]))
    | none =>
      let r := st.orderbook.process_order order now
      (Reply.trades r.1,
       ⟨r.2, trimHistory (st.trades_history ++ r.1), st.account_manager⟩, [])
  | EngineMessage.GetOrderBook =>
    (Reply.book st.orderbook,
     ⟨st.orderbook, trimHistory st.trades_history, st.account_manager⟩, [])
  | EngineMessage.GetTrades =>
    (Reply.trades st.trades_history,
     ⟨st.orderbook, trimHistory st.trades_history, st.account_manager⟩, [])

/-- Run the actor loop over a sequence of (message, arrival-time) pairs. -/
def engineRun (st : EngineState) : List (EngineMessage × ℕ) → EngineState
  | [] => st
  | (msg, now) :: rest => engineRun (engineStep st msg now).2.1 rest

/-! ## Facts about the account manager -/

/-- Asset credited to an order's owner on a fill: base (BAD) for a buy,
quote (USDC) for a sell. -/
def recvAsset : Side → String
  | Side.Buy => "BAD"
  | Side.Sell => "USDC"

/-- Amount credited on a fill: `quantity` BAD for a buy,
`price * quantity` USDC for a sell. -/
def recvAmount (side : Side) (price : ℚ) (quantity : ℕ) : ℚ :=
  match side with
  | Side.Buy => (quantity : ℚ)
  | Side.Sell => price * (quantity : ℚ)

theorem setBalance_apply (am : AccountManager) (uid : ℕ) (asset : String)
    (b : UserBalance) (u : ℕ) (a : String) :
    (am.setBalance uid asset b).balances u a
      = if u = uid ∧ a = asset then b else am.balances u a := rfl

theorem try_lock_error_iff (am : AccountManager) (uid : ℕ) (side : Side)
    (price : ℚ) (qty : ℕ) :
    (∃ e, am.try_lock_balance uid side price qty = Except.error e)
      ↔ (am.balances uid (lockAsset side)).available < lockAmount side price qty := by
  simp only [AccountManager.try_lock_balance]
  split_ifs with h
  · simpa using h
  · simpa using h

theorem try_lock_ok_eq (am am' : AccountManager) (uid : ℕ) (side : Side)
    (price : ℚ) (qty : ℕ)
    (h : am.try_lock_balance uid side price qty = Except.ok am') :
    ¬ (am.balances uid (lockAsset side)).available < lockAmount side price qty
      ∧ am' = am.setBalance uid (lockAsset side)
          ⟨(am.balances uid (lockAsset side)).available - lockAmount side price qty,
           (am.balances uid (lockAsset side)).locked + lockAmount side price qty⟩ := by
  simp only [AccountManager.try_lock_balance] at h
  split_ifs at h with hlt
  injection h with h'
  exact ⟨hlt, h'.symm⟩

theorem usdc_ne_bad : ("USDC" : String) ≠ "BAD" := by decide

theorem on_trade_match_balances (am : AccountManager) (uid : ℕ) (side : Side)
    (price : ℚ) (qty : ℕ) (u : ℕ) (a : String) :
    (am.on_trade_match uid side price qty).balances u a
      = if u = uid ∧ a = recvAsset side then
          ⟨(am.balances u a).available + recvAmount side price qty,
           (am.balances u a).locked⟩
        else if u = uid ∧ a = lockAsset side then
          ⟨(am.balances u a).available,
           (am.balances u a).locked - lockAmount side price qty⟩
        else am.balances u a := by
  have hub := usdc_ne_bad
  cases side with
  | Buy =>
    simp only [AccountManager.on_trade_match, setBalance_apply, recvAsset, lockAsset,
      recvAmount, lockAmount]
    split_ifs with h1 h2 h2 <;> simp_all
  | Sell =>
    simp only [AccountManager.on_trade_match, setBalance_apply, recvAsset, lockAsset,
      recvAmount, lockAmount]
    split_ifs with h1 h2 h2 <;> simp_all

theorem recvAsset_ne_lockAsset (side : Side) : recvAsset side ≠ lockAsset side := by
  cases side <;> simp only [recvAsset, lockAsset] <;>
    first
      | exact usdc_ne_bad.symm
      | exact usdc_ne_bad

theorem settleTrades_balances (uid : ℕ) (side : Side) :
    ∀ (ts : List Trade) (am : AccountManager) (u : ℕ) (a : String),
      ((settleTrades am uid side ts).balances u a).available
          = (am.balances u a).available
            + (if u = uid ∧ a = recvAsset side
               then (ts.map (fun t => recvAmount side t.price t.quantity)).sum else 0)
        ∧ ((settleTrades am uid side ts).balances u a).locked
          = (am.balances u a).locked
            - (if u = uid ∧ a = lockAsset side
               then (ts.map (fun t => lockAmount side t.price t.quantity)).sum else 0) := by
  intro ts
  induction ts with
  | nil => intro am u a; simp [settleTrades]
  | cons t ts ih =>
    intro am u a
    have hne := recvAsset_ne_lockAsset side
    rcases ih (am.on_trade_match uid side t.price t.quantity) u a with ⟨ih1, ih2⟩
    constructor
    · rw [settleTrades, ih1, on_trade_match_balances]
      split_ifs with h1 h2 <;> simp_all <;> try ring
    · rw [settleTrades, ih2, on_trade_match_balances]
      split_ifs with h1 h2 <;> simp_all <;> try ring

/-! ## Facts about one engine-loop iteration -/

/-- The trades produced (and, when the order has an owner, settled) by one
loop iteration: empty unless the message is an accepted `PlaceOrder`. -/
def stepTrades (st : EngineState) (msg : EngineMessage) (now : ℕ) : List Trade :=
  match msg with
  | EngineMessage.PlaceOrder order =>
    match order.user_id with
    | some uid =>
      match st.account_manager.try_lock_balance uid order.side order.price order.quantity with
      | Except.error _ => []
      | Except.ok _ => (st.orderbook.process_order order now).1
    | none => (st.orderbook.process_order order now).1
  | _ => []

/-- Total number of trades produced over a run. -/
def tradesProduced (st : EngineState) : List (EngineMessage × ℕ) → ℕ
  | [] => 0
  | (msg, now) :: rest =>
      (stepTrades st msg now).length + tradesProduced (engineStep st msg now).2.1 rest

theorem trimHistory_le_highWater (h : List Trade) : (trimHistory h).length ≤ 5000 := by
  unfold trimHistory
  split_ifs with hgt
  · simp only [List.length_drop]
    omega
  · omega

theorem trimHistory_length_le (h : List Trade) : (trimHistory h).length ≤ h.length := by
  unfold trimHistory
  split_ifs with hgt
  · simp only [List.length_drop]; omega
  · omega

theorem engineStep_history (st : EngineState) (msg : EngineMessage) (now : ℕ) :
    (engineStep st msg now).2.1.trades_history = st.trades_history
      ∨ (engineStep st msg now).2.1.trades_history
          = trimHistory (st.trades_history ++ stepTrades st msg now) := by
  cases msg with
  | PlaceOrder order =>
    cases horder : order.user_id with
    | some uid =>
      cases hlock : st.account_manager.try_lock_balance uid order.side order.price
          order.quantity with
      | error e => left; simp [engineStep, stepTrades, horder, hlock]
      | ok am1 => right; simp [engineStep, stepTrades, horder, hlock]
    | none => right; simp [engineStep, stepTrades, horder]
  | GetOrderBook => right; simp [engineStep, stepTrades]
  | GetTrades => right; simp [engineStep, stepTrades]

/-! ## Claims about the engine -/

/-- C4: `try_lock_balance` fails exactly when the available balance of the
committed asset (`price * quantity` USDC for a buy, `quantity` BAD for a
sell) is below the required amount; on success exactly the required amount
moves from available to locked and no other (user, asset) balance changes;
and an owned `PlaceOrder` whose lock fails replies with an empty trade list,
leaves the whole engine state (book, history, accounts) unchanged, and emits
no persistence intent. -/
theorem claim_C4_insufficient_funds :
    (∀ (am : AccountManager) (uid : ℕ) (price : ℚ) (qty : ℕ),
      ((∃ e, am.try_lock_balance uid Side.Buy price qty = Except.error e)
          ↔ (am.get_balance uid "USDC").1 < price * (qty : ℚ))
      ∧ ((∃ e, am.try_lock_balance uid Side.Sell price qty = Except.error e)
          ↔ (am.get_balance uid "BAD").1 < (qty : ℚ))) ∧
    (∀ (am am' : AccountManager) (uid : ℕ) (side : Side) (price : ℚ) (qty : ℕ),
      am.try_lock_balance uid side price qty = Except.ok am' →
        am'.get_balance uid (lockAsset side)
            = ((am.get_balance uid (lockAsset side)).1 - lockAmount side price qty,
               (am.get_balance uid (lockAsset side)).2 + lockAmount side price qty)
          ∧ ∀ (u : ℕ) (a : String), ¬(u = uid ∧ a = lockAsset side) →
              am'.get_balance u a = am.get_balance u a) ∧
    (∀ (st : EngineState) (o : Order) (uid : ℕ) (now : ℕ),
      o.user_id = some uid →
      (∃ e, st.account_manager.try_lock_balance uid o.side o.price o.quantity
        = Except.error e) →
      engineStep st (EngineMessage.PlaceOrder o) now = (Reply.trades [], st, [])) := by
  refine ⟨?_, ?_, ?_⟩
  · intro am uid price qty
    constructor
    · simpa [AccountManager.get_balance, lockAsset, lockAmount]
        using try_lock_error_iff am uid Side.Buy price qty
    · simpa [AccountManager.get_balance, lockAsset, lockAmount]
        using try_lock_error_iff am uid Side.Sell price qty
  · intro am am' uid side price qty h
    rcases try_lock_ok_eq am am' uid side price qty h with ⟨-, rfl⟩
    constructor
    · simp [AccountManager.get_balance, setBalance_apply]
    · intro u a hna
      simp [AccountManager.get_balance, setBalance_apply, hna]
  · intro st o uid now ho ⟨e, he⟩
    simp [engineStep, ho, he]

/-- Witness for C4: user 1 holds 100 USDC available; a buy of 10 at price 50
needs 500 USDC, so the lock fails and the engine replies with an empty trade
list and changes nothing. -/
theorem claim_C4_insufficient_funds_witness :
    engineStep
        (EngineState.init ((AccountManager.new).load_balance 1 "USDC" 100 0))
        (EngineMessage.PlaceOrder ⟨7, 50, 10, Side.Buy, some 1⟩) 3
      = (Reply.trades [],
         EngineState.init ((AccountManager.new).load_balance 1 "USDC" 100 0), []) := by
  refine claim_C4_insufficient_funds.2.2
    (EngineState.init ((AccountManager.new).load_balance 1 "USDC" 100 0))
    ⟨7, 50, 10, Side.Buy, some 1⟩ 1 3 rfl ⟨"insufficient balance", ?_⟩
  norm_num [AccountManager.try_lock_balance, AccountManager.load_balance,
    AccountManager.new, setBalance_apply, lockAsset, lockAmount, EngineState.init,
    UserBalance.default]

/-- C9: an accepted or rejected `PlaceOrder` owned by user `uid` (or by
nobody) only ever touches `uid`'s ledger entries: every other user's
`get_balance` is unchanged for every asset — in particular the engine never
settles the maker side of a trade. -/
theorem claim_C9_place_order_frame :
    ∀ (st : EngineState) (o : Order) (now : ℕ),
      (o.user_id = none →
        ∀ (v : ℕ) (a : String),
          (engineStep st (EngineMessage.PlaceOrder o) now).2.1.account_manager.get_balance v a
            = st.account_manager.get_balance v a) ∧
      (∀ uid, o.user_id = some uid →
        ∀ (v : ℕ), v ≠ uid → ∀ (a : String),
          (engineStep st (EngineMessage.PlaceOrder o) now).2.1.account_manager.get_balance v a
            = st.account_manager.get_balance v a) := by
  intro st o now
  constructor
  · intro ho v a
    simp [engineStep, ho]
  · intro uid ho v hv a
    cases hlock : st.account_manager.try_lock_balance uid o.side o.price o.quantity with
    | error e => simp [engineStep, ho, hlock]
    | ok am1 =>
      rcases try_lock_ok_eq _ _ _ _ _ _ hlock with ⟨-, rfl⟩
      have hset : ∀ (b : UserBalance),
          ((st.account_manager.setBalance uid (lockAsset o.side) b).balances v a)
            = st.account_manager.balances v a := by
        intro b
        rw [setBalance_apply, if_neg]
        simp [hv]
      rcases settleTrades_balances uid o.side
        ((st.orderbook.process_order o now).1)
        (st.account_manager.setBalance uid (lockAsset o.side)
          ⟨(st.account_manager.balances uid (lockAsset o.side)).available
              - lockAmount o.side o.price o.quantity,
           (st.account_manager.balances uid (lockAsset o.side)).locked
              + lockAmount o.side o.price o.quantity⟩) v a with ⟨hav, hlk⟩
      simp only [engineStep, ho, hlock, AccountManager.get_balance]
      rw [hav, hlk, hset]
      simp [hv]

/-- Witness for C9: user 1 places a buy which fully matches user 2's framing
is not even needed — the resting maker is unowned; user 2's USDC balance is
untouched by the call. -/
theorem claim_C9_place_order_frame_witness :
    (engineStep
        ⟨⟨[], [(90, [⟨1, 90, 10, Side.Sell, some 2⟩])]⟩, [],
          ((AccountManager.new).load_balance 1 "USDC" 1000 0)⟩
        (EngineMessage.PlaceOrder ⟨5, 100, 10, Side.Buy, some 1⟩)
        3).2.1.account_manager.get_balance 2 "USDC"
      = ((AccountManager.new).load_balance 1 "USDC" 1000 0).get_balance 2 "USDC" := by
  exact (claim_C9_place_order_frame
    ⟨⟨[], [(90, [⟨1, 90, 10, Side.Sell, some 2⟩])]⟩, [],
      ((AccountManager.new).load_balance 1 "USDC" 1000 0)⟩
    ⟨5, 100, 10, Side.Buy, some 1⟩ 3).2 1 rfl 2 (by omega) "USDC"

/-- C10: `GetOrderBook` and `GetTrades` are pure reads on every reachable
state (history within the high-water mark): each replies with a copy of the
current book (resp. trade history), leaves the whole state — book, balances
and history — unchanged, and emits no persistence intent. -/
theorem claim_C10_queries_pure :
    ∀ (st : EngineState) (now : ℕ),
      st.trades_history.length ≤ 5000 →
      engineStep st EngineMessage.GetOrderBook now = (Reply.book st.orderbook, st, [])
        ∧ engineStep st EngineMessage.GetTrades now
            = (Reply.trades st.trades_history, st, []) := by
  intro st now hlen
  have hnot : ¬ st.trades_history.length > 5000 := by omega
  constructor
  · simp [engineStep, trimHistory, hnot]
  · simp [engineStep, trimHistory, hnot]

/-- Witness for C10 on a concrete small state. -/
theorem claim_C10_queries_pure_witness :
    engineStep (EngineState.init AccountManager.new) EngineMessage.GetTrades 9
      = (Reply.trades (EngineState.init AccountManager.new).trades_history,
         EngineState.init AccountManager.new, []) :=
  (claim_C10_queries_pure (EngineState.init AccountManager.new) 9 (by simp [EngineState.init])).2

/-- C8: the trade history is bounded: (a) whenever its length exceeds the
high-water mark 5000 the end-of-iteration trim cuts it to exactly the
low-water mark 2000, dropping the oldest entries; (b) starting within the
high-water mark, the history length still is within it after processing any
message sequence (so it never exceeds 5000 at the start of a message); (c)
the history never grows past its previous length plus the trades produced
since — in particular after a trim (length 2000) a `GetTrades` returns at
most 2000 plus the trades appended since. -/
theorem claim_C8_bounded_history :
    (∀ h : List Trade, h.length > 5000 →
        trimHistory h = h.drop (h.length - 2000) ∧ (trimHistory h).length = 2000) ∧
    (∀ (st : EngineState) (msgs : List (EngineMessage × ℕ)),
        st.trades_history.length ≤ 5000 →
        (engineRun st msgs).trades_history.length ≤ 5000) ∧
    (∀ (st : EngineState) (msgs : List (EngineMessage × ℕ)),
        (engineRun st msgs).trades_history.length
          ≤ st.trades_history.length + tradesProduced st msgs) := by
  refine ⟨?_, ?_, ?_⟩
  · intro h hgt
    constructor
    · simp [trimHistory, hgt]
    · simp only [trimHistory, if_pos hgt, List.length_drop]
      omega
  · intro st msgs
    induction msgs generalizing st with
    | nil => intro h; simpa [engineRun] using h
    | cons m rest ih =>
      obtain ⟨msg, now⟩ := m
      intro hst
      have hnext : (engineStep st msg now).2.1.trades_history.length ≤ 5000 := by
        rcases engineStep_history st msg now with he | he
        · rw [he]; exact hst
        · rw [he]; exact trimHistory_le_highWater _
      simpa [engineRun] using ih _ hnext
  · intro st msgs
    induction msgs generalizing st with
    | nil => simp [engineRun, tradesProduced]
    | cons m rest ih =>
      obtain ⟨msg, now⟩ := m
      have hstep : (engineStep st msg now).2.1.trades_history.length
          ≤ st.trades_history.length + (stepTrades st msg now).length := by
        rcases engineStep_history st msg now with he | he
        · rw [he]; omega
        · rw [he]
          calc (trimHistory (st.trades_history ++ stepTrades st msg now)).length
              ≤ (st.trades_history ++ stepTrades st msg now).length :=
                trimHistory_length_le _
            _ = st.trades_history.length + (stepTrades st msg now).length := by simp
      have := ih (engineStep st msg now).2.1
      simp only [engineRun, tradesProduced]
      omega

/-- Witness for C8: a history of 5001 trades is trimmed to exactly its last
2000 entries. -/
theorem claim_C8_bounded_history_witness :
    trimHistory (List.replicate 5001 (⟨0, 0, 0, 0, 0⟩ : Trade))
        = (List.replicate 5001 (⟨0, 0, 0, 0, 0⟩ : Trade)).drop
            ((List.replicate 5001 (⟨0, 0, 0, 0, 0⟩ : Trade)).length - 2000)
      ∧ (trimHistory (List.replicate 5001 (⟨0, 0, 0, 0, 0⟩ : Trade))).length = 2000 :=
  claim_C8_bounded_history.1 (List.replicate 5001 (⟨0, 0, 0, 0, 0⟩ : Trade))
    (by rw [List.length_replicate]; norm_num)

/-! ## Conservation and non-negativity of balances (C5) -/

/-- Per-trade effect of the engine's taker settlement on the
`available + locked` sum of one (user, asset) entry. -/
def tradeSettleDelta (uid : ℕ) (side : Side) (t : Trade) (u : ℕ) (a : String) : ℚ :=
  (if u = uid ∧ a = recvAsset side then recvAmount side t.price t.quantity else 0)
    - (if u = uid ∧ a = lockAsset side then lockAmount side t.price t.quantity else 0)

/-- Net settled trade value applied to (u, a) by one loop iteration: zero
unless the message is an accepted, owned `PlaceOrder`. -/
def stepSettle (st : EngineState) (msg : EngineMessage) (now : ℕ) (u : ℕ) (a : String) : ℚ :=
  match msg with
  | EngineMessage.PlaceOrder order =>
    match order.user_id with
    | some uid =>
      match st.account_manager.try_lock_balance uid order.side order.price order.quantity with
      | Except.error _ => 0
      | Except.ok _ =>
        ((st.orderbook.process_order order now).1.map
          (fun t => tradeSettleDelta uid order.side t u a)).sum
    | none => 0
  | _ => 0

/-- Net settled trade value applied to (u, a) over a whole run. -/
def netSettled (st : EngineState) : List (EngineMessage × ℕ) → ℕ → String → ℚ
  | [] => fun _ _ => 0
  | (msg, now) :: rest => fun u a =>
      stepSettle st msg now u a + netSettled (engineStep st msg now).2.1 rest u a

/-- Sum of balances of one ledger entry. -/
def sumBal (am : AccountManager) (u : ℕ) (a : String) : ℚ :=
  (am.balances u a).available + (am.balances u a).locked

/-- Both fields of one ledger entry are non-negative. -/
def goodB (am : AccountManager) (u : ℕ) (a : String) : Prop :=
  0 ≤ (am.balances u a).available ∧ 0 ≤ (am.balances u a).locked

theorem list_sum_map_sub (f g : Trade → ℚ) (l : List Trade) :
    (l.map (fun x => f x - g x)).sum = (l.map f).sum - (l.map g).sum := by
  induction l with
  | nil => simp
  | cons x xs ih => simp only [List.map_cons, List.sum_cons, ih]; ring

theorem sum_tradeSettleDelta (uid : ℕ) (side : Side) (u : ℕ) (a : String)
    (ts : List Trade) :
    (ts.map (fun t => tradeSettleDelta uid side t u a)).sum
      = (if u = uid ∧ a = recvAsset side
         then (ts.map (fun t => recvAmount side t.price t.quantity)).sum else 0)
        - (if u = uid ∧ a = lockAsset side
           then (ts.map (fun t => lockAmount side t.price t.quantity)).sum else 0) := by
  unfold tradeSettleDelta
  rw [list_sum_map_sub]
  congr 1
  · split_ifs <;> simp
  · split_ifs <;> simp

theorem lockAmount_nonneg (side : Side) (price : ℚ) (qty : ℕ) (h : 0 ≤ price) :
    0 ≤ lockAmount side price qty := by
  cases side <;> simp only [lockAmount] <;> positivity

theorem process_order_qty_le (book : OrderBook) (o : Order) (now : ℕ) :
    tradesQty (book.process_order o now).1 ≤ o.quantity := by
  cases ho : o.side
  · simp only [OrderBook.process_order, ho]
    have h := fillLevels_qty o.id (fun p => decide (p ≤ o.price)) now book.asks o.quantity
    omega
  · simp only [OrderBook.process_order, ho]
    have h := fillLevels_qty o.id (fun p => decide (o.price ≤ p)) now book.bids o.quantity
    omega

theorem process_order_price_bound (book : OrderBook) (o : Order) (now : ℕ) :
    (o.side = Side.Buy →
      ∀ t ∈ (book.process_order o now).1, t.price ≤ o.price)
    ∧ (o.side = Side.Sell →
      ∀ t ∈ (book.process_order o now).1, o.price ≤ t.price) := by
  constructor
  · intro ho t ht
    simp only [OrderBook.process_order, ho] at ht
    have h := (fillLevels_price o.id _ now book.asks o.quantity t ht).2
    exact of_decide_eq_true h
  · intro ho t ht
    simp only [OrderBook.process_order, ho] at ht
    have h := (fillLevels_price o.id _ now book.bids o.quantity t ht).2
    exact of_decide_eq_true h

theorem tradesQty_cast (ts : List Trade) :
    (ts.map (fun t => (t.quantity : ℚ))).sum = (tradesQty ts : ℚ) := by
  induction ts with
  | nil => simp [tradesQty]
  | cons t ts ih => simp [tradesQty, ih]

theorem sum_lockAmount_le (side : Side) (P : ℚ) (hP : 0 ≤ P) (Q : ℕ)
    (ts : List Trade)
    (hprice : side = Side.Buy → ∀ t ∈ ts, t.price ≤ P)
    (hqty : tradesQty ts ≤ Q) :
    (ts.map (fun t => lockAmount side t.price t.quantity)).sum ≤ lockAmount side P Q := by
  cases side with
  | Buy =>
    simp only [lockAmount]
    have key : ∀ us : List Trade, (∀ t ∈ us, t.price ≤ P) →
        (us.map (fun t => t.price * (t.quantity : ℚ))).sum ≤ P * (tradesQty us : ℚ) := by
      intro us
      induction us with
      | nil => intro _; simp [tradesQty]
      | cons t us ih =>
        intro hus
        have h1 : t.price * (t.quantity : ℚ) ≤ P * (t.quantity : ℚ) :=
          mul_le_mul_of_nonneg_right (hus t (by simp)) (by positivity)
        have h2 := ih (fun x hx => hus x (by simp [hx]))
        simp only [List.map_cons, List.sum_cons]
        have hq : (tradesQty (t :: us) : ℚ) = (t.quantity : ℚ) + (tradesQty us : ℚ) := by
          have hn : tradesQty (t :: us) = t.quantity + tradesQty us := by simp [tradesQty]
          rw [hn]
          push_cast
          ring
        rw [hq, mul_add]
        exact add_le_add h1 h2
    calc (ts.map (fun t => t.price * (t.quantity : ℚ))).sum
        ≤ P * (tradesQty ts : ℚ) := key ts (hprice rfl)
      _ ≤ P * (Q : ℚ) := by
          apply mul_le_mul_of_nonneg_left _ hP
          exact_mod_cast hqty
  | Sell =>
    simp only [lockAmount]
    rw [tradesQty_cast]
    exact_mod_cast hqty

theorem sum_recvAmount_nonneg (side : Side) (ts : List Trade)
    (hprice : side = Side.Sell → ∀ t ∈ ts, 0 ≤ t.price) :
    0 ≤ (ts.map (fun t => recvAmount side t.price t.quantity)).sum := by
  apply List.sum_nonneg
  intro x hx
  simp only [List.mem_map] at hx
  obtain ⟨t, ht, rfl⟩ := hx
  cases side with
  | Buy => simp [recvAmount]
  | Sell =>
    simp only [recvAmount]
    have := hprice rfl t ht
    positivity

theorem engineStep_account (st : EngineState) (msg : EngineMessage) (now : ℕ)
    (hwf : ∀ o : Order, msg = EngineMessage.PlaceOrder o → 0 ≤ o.price)
    (u : ℕ) (a : String) :
    sumBal (engineStep st msg now).2.1.account_manager u a
        = sumBal st.account_manager u a + stepSettle st msg now u a
      ∧ (goodB st.account_manager u a →
          goodB (engineStep st msg now).2.1.account_manager u a) := by
  cases msg with
  | GetOrderBook => simp [engineStep, stepSettle]
  | GetTrades => simp [engineStep, stepSettle]
  | PlaceOrder o =>
    have hP : 0 ≤ o.price := hwf o rfl
    cases ho : o.user_id with
    | none => simp [engineStep, stepSettle, ho]
    | some uid =>
      cases hlock : st.account_manager.try_lock_balance uid o.side o.price o.quantity with
      | error e => simp [engineStep, stepSettle, ho, hlock]
      | ok am1 =>
        rcases try_lock_ok_eq _ _ _ _ _ _ hlock with ⟨hge, ham1⟩
        simp only [engineStep, stepSettle, ho, hlock]
        set ts := (st.orderbook.process_order o now).1 with hts
        set asset := lockAsset o.side with hasset
        set req := lockAmount o.side o.price o.quantity with hreq
        have hreq0 : 0 ≤ req := lockAmount_nonneg o.side o.price o.quantity hP
        -- price facts about the produced trades
        have htp : o.side = Side.Buy → ∀ t ∈ ts, t.price ≤ o.price :=
          (process_order_price_bound st.orderbook o now).1
        have hts : o.side = Side.Sell → ∀ t ∈ ts, 0 ≤ t.price := by
          intro hs t ht
          exact le_trans hP ((process_order_price_bound st.orderbook o now).2 hs t ht)
        have hqle : tradesQty ts ≤ o.quantity := process_order_qty_le st.orderbook o now
        have hcost : (ts.map (fun t => lockAmount o.side t.price t.quantity)).sum ≤ req :=
          sum_lockAmount_le o.side o.price hP o.quantity ts htp hqle
        have hrecv : 0 ≤ (ts.map (fun t => recvAmount o.side t.price t.quantity)).sum :=
          sum_recvAmount_nonneg o.side ts hts
        -- balances after lock
        have ham1b : ∀ (v : ℕ) (b : String), am1.balances v b
            = if v = uid ∧ b = asset then
                ⟨(st.account_manager.balances uid asset).available - req,
                 (st.account_manager.balances uid asset).locked + req⟩
              else st.account_manager.balances v b := by
          intro v b
          rw [ham1, setBalance_apply]
        rcases settleTrades_balances uid o.side ts am1 u a with ⟨hav, hlk⟩
        have hrl := recvAsset_ne_lockAsset o.side
        constructor
        · rw [sumBal, sumBal, hav, hlk, ham1b, sum_tradeSettleDelta]
          split_ifs with h1 h2 h3 <;> simp_all <;> ring
        · intro hgood
          rcases hgood with ⟨hga, hgl⟩
          constructor
          · rw [hav, ham1b]
            split_ifs with h1 h2 <;> simp_all <;> linarith
          · rw [hlk, ham1b]
            split_ifs with h1 h2 <;> simp_all <;> linarith

theorem engineRun_account (msgs : List (EngineMessage × ℕ)) :
    ∀ (st : EngineState),
      (∀ p ∈ msgs, ∀ o : Order, p.1 = EngineMessage.PlaceOrder o → 0 ≤ o.price) →
      ∀ (u : ℕ) (a : String),
        sumBal (engineRun st msgs).account_manager u a
            = sumBal st.account_manager u a + netSettled st msgs u a
          ∧ (goodB st.account_manager u a →
              goodB (engineRun st msgs).account_manager u a) := by
  induction msgs with
  | nil => intro st _ u a; simp [engineRun, netSettled]
  | cons m rest ih =>
    intro st hwf u a
    obtain ⟨msg, now⟩ := m
    have hwf1 : ∀ o : Order, msg = EngineMessage.PlaceOrder o → 0 ≤ o.price := by
      intro o hmo
      exact hwf (msg, now) (by simp) o hmo
    have hwfr : ∀ p ∈ rest, ∀ o : Order, p.1 = EngineMessage.PlaceOrder o → 0 ≤ o.price := by
      intro p hp o hpo
      exact hwf p (by simp [hp]) o hpo
    rcases engineStep_account st msg now hwf1 u a with ⟨hsum, hgood⟩
    rcases ih (engineStep st msg now).2.1 hwfr u a with ⟨ihsum, ihgood⟩
    constructor
    · simp only [engineRun, netSettled]
      rw [ihsum, hsum]
      ring
    · intro hg
      simpa [engineRun] using ihgood (hgood hg)

/-- C5: conservation with non-negativity.  For every (user, asset) entry,
after the engine processes any message sequence of well-formed orders
(non-negative price), `available + locked` equals its initial value plus the
net settled trade value applied to that entry (`netSettled`, the exact sum of
the per-trade settlement deltas the engine applies for the taker), and both
`available` and `locked` remain non-negative. -/
theorem claim_C5_conservation :
    ∀ (st : EngineState) (msgs : List (EngineMessage × ℕ)),
      (∀ p ∈ msgs, ∀ o : Order, p.1 = EngineMessage.PlaceOrder o → 0 ≤ o.price) →
      ∀ (u : ℕ) (a : String),
        0 ≤ (st.account_manager.get_balance u a).1 →
        0 ≤ (st.account_manager.get_balance u a).2 →
        ((engineRun st msgs).account_manager.get_balance u a).1
              + ((engineRun st msgs).account_manager.get_balance u a).2
            = (st.account_manager.get_balance u a).1
              + (st.account_manager.get_balance u a).2 + netSettled st msgs u a
          ∧ 0 ≤ ((engineRun st msgs).account_manager.get_balance u a).1
          ∧ 0 ≤ ((engineRun st msgs).account_manager.get_balance u a).2 := by
  intro st msgs hwf u a hga hgl
  rcases engineRun_account msgs st hwf u a with ⟨hsum, hgood⟩
  have hg := hgood ⟨hga, hgl⟩
  refine ⟨?_, hg.1, hg.2⟩
  simpa [sumBal, AccountManager.get_balance] using hsum

/-- Witness for C5: user 1, funded with 1000 USDC, buys 10 at limit 100
against an unowned resting sell `10@90`; conservation and non-negativity hold
for the (1, USDC) entry. -/
theorem claim_C5_conservation_witness :
    ((engineRun
          ⟨⟨[], [(90, [⟨1, 90, 10, Side.Sell, none⟩])]⟩, [],
            (AccountManager.new).load_balance 1 "USDC" 1000 0⟩
          [(EngineMessage.PlaceOrder ⟨2, 100, 10, Side.Buy, some 1⟩, 3)]).account_manager.get_balance
          1 "USDC").1
        + ((engineRun
          ⟨⟨[], [(90, [⟨1, 90, 10, Side.Sell, none⟩])]⟩, [],
            (AccountManager.new).load_balance 1 "USDC" 1000 0⟩
          [(EngineMessage.PlaceOrder ⟨2, 100, 10, Side.Buy, some 1⟩, 3)]).account_manager.get_balance
          1 "USDC").2
      = (((AccountManager.new).load_balance 1 "USDC" 1000 0).get_balance 1 "USDC").1
        + (((AccountManager.new).load_balance 1 "USDC" 1000 0).get_balance 1 "USDC").2
        + netSettled
            ⟨⟨[], [(90, [⟨1, 90, 10, Side.Sell, none⟩])]⟩, [],
              (AccountManager.new).load_balance 1 "USDC" 1000 0⟩
            [(EngineMessage.PlaceOrder ⟨2, 100, 10, Side.Buy, some 1⟩, 3)] 1 "USDC" := by
  refine (claim_C5_conservation
    ⟨⟨[], [(90, [⟨1, 90, 10, Side.Sell, none⟩])]⟩, [],
      (AccountManager.new).load_balance 1 "USDC" 1000 0⟩
    [(EngineMessage.PlaceOrder ⟨2, 100, 10, Side.Buy, some 1⟩, 3)]
    ?_ 1 "USDC" ?_ ?_).1
  · intro p hp o hpo
    simp only [List.mem_singleton] at hp
    subst hp
    simp only at hpo
    injection hpo with h
    subst h
    norm_num
  · norm_num [AccountManager.get_balance, AccountManager.load_balance,
      AccountManager.new, setBalance_apply]
  · norm_num [AccountManager.get_balance, AccountManager.load_balance,
      AccountManager.new, setBalance_apply]

/-! ## CancelOrder (modelled from the spec)

`src/engine.rs`'s `EngineMessage` has no cancel variant; `CancelOrder` exists
only in the missing backend library crate's `engine.rs` — the repository
snapshot keeps only its caller (`backend/src/main.rs`) and its test
(`backend/tests/cancel_order_test.rs`).  The operation is therefore modelled
from the spec (§4.3). -/

/-- The order matches a cancel request: same id and same owner. -/
def matchesCancel (order_id uid : ℕ) (o : Order) : Bool :=
  decide (o.id = order_id ∧ o.user_id = some uid)

/-- Modelled from the spec: remove from one FIFO queue the first resting
order with the given id and owner. -/
def removeFromQueue (order_id uid : ℕ) : List Order → Option (Order × List Order)
  | [] => none
  | o :: q =>
    if matchesCancel order_id uid o then some (o, q)
    else
      match removeFromQueue order_id uid q with
      | some (o', q') => some (o', o :: q')
      | none => none

/-- Modelled from the spec: remove from a side's price levels the first
resting order with the given id and owner, dropping the level if its queue
empties. -/
def removeOrder (order_id uid : ℕ) :
    List (ℚ × List Order) → Option (Order × List (ℚ × List Order))
  | [] => none
  | (p, q) :: rest =>
    match removeFromQueue order_id uid q with
    | some (o, q') => some (o, if q'.isEmpty then rest else (p, q') :: rest)
    | none =>
      match removeOrder order_id uid rest with
      | some (o, rest') => some (o, (p, q) :: rest')
      | none => none

/-- Modelled from the spec: reverse an order's original reservation — move
`price * quantity` USDC (buy) respectively `quantity` BAD (sell) from locked
back to available (`backend/tests/cancel_order_test.rs` shows the exact
restoration). -/
def AccountManager.unlock_balance (am : AccountManager) (user_id : ℕ) (side : Side)
    (price : ℚ) (quantity : ℕ) : AccountManager :=
  let asset := lockAsset side
  let amount := lockAmount side price quantity
  let balance := am.balances user_id asset
  am.setBalance user_id asset ⟨balance.available + amount, balance.locked - amount⟩

/-- Modelled from the spec (§4.3): `CancelOrder(order_id, owner)`: locate a
resting order with matching id and owner (bids, then asks); if found remove
it, reverse its original reservation, emit an `UpdateBalance` intent and
return the removed order; otherwise reply `none` and change nothing. -/
def cancelOrder (st : EngineState) (order_id uid : ℕ) :
    Option Order × EngineState × List DbMessage :=
  match removeOrder order_id uid st.orderbook.bids with
  | some (o, bids') =>
    let am' := st.account_manager.unlock_balance uid o.side o.price o.quantity
    let bal := am'.get_balance uid (lockAsset o.side)
    (some o, ⟨⟨bids', st.orderbook.asks⟩, st.trades_history, am'⟩,
     [DbMessage.UpdateBalance uid (lockAsset o.side) bal.1 bal.2])
  | none =>
    match removeOrder order_id uid st.orderbook.asks with
    | some (o, asks') =>
      let am' := st.account_manager.unlock_balance uid o.side o.price o.quantity
      let bal := am'.get_balance uid (lockAsset o.side)
      (some o, ⟨⟨st.orderbook.bids, asks'⟩, st.trades_history, am'⟩,
       [DbMessage.UpdateBalance uid (lockAsset o.side) bal.1 bal.2])
    | none => (none, st, [])

/-- All resting orders of a side, in book iteration order. -/
def levelOrders (levels : List (ℚ × List Order)) : List Order :=
  levels.flatMap (fun l => l.2)

theorem removeFromQueue_none (order_id uid : ℕ) :
    ∀ q : List Order, removeFromQueue order_id uid q = none ↔
      ∀ o ∈ q, ¬ matchesCancel order_id uid o := by
  intro q
  induction q with
  | nil => simp [removeFromQueue]
  | cons o q ih =>
    simp only [removeFromQueue]
    split_ifs with h
    · constructor
      · intro hc; exact absurd hc (by simp)
      · intro hall; exact absurd h (hall o (by simp))
    · cases hr : removeFromQueue order_id uid q with
      | some r =>
        constructor
        · intro hc; exact absurd hc (by simp)
        · intro hall
          have hn : removeFromQueue order_id uid q = none :=
            ih.mpr (fun x hx => hall x (by simp [hx]))
          rw [hr] at hn; exact absurd hn (by simp)
      | none =>
        have hq := ih.mp hr
        constructor
        · intro _ x hx
          rcases List.mem_cons.mp hx with rfl | hx
          · exact h
          · exact hq x hx
        · intro _; rfl

theorem removeFromQueue_some (order_id uid : ℕ) :
    ∀ (q : List Order) (o : Order) (q' : List Order),
      removeFromQueue order_id uid q = some (o, q') →
      matchesCancel order_id uid o = true ∧ o ∈ q
        ∧ q' = q.eraseP (matchesCancel order_id uid) := by
  intro q
  induction q with
  | nil => intro o q' h; simp [removeFromQueue] at h
  | cons o0 q ih =>
    intro o q' h
    simp only [removeFromQueue] at h
    split_ifs at h with h0
    · simp only [Option.some.injEq, Prod.mk.injEq] at h
      obtain ⟨h1, h2⟩ := h
      subst h1
      subst h2
      exact ⟨h0, by simp, (List.eraseP_cons_of_pos h0).symm⟩
    · cases hr : removeFromQueue order_id uid q with
      | some r =>
        obtain ⟨o1, q1⟩ := r
        rw [hr] at h
        simp only [Option.some.injEq, Prod.mk.injEq] at h
        obtain ⟨h1, h2⟩ := h
        rw [h1] at hr
        rcases ih o q1 hr with ⟨hm, hmem, hq1⟩
        refine ⟨hm, by simp [hmem], ?_⟩
        rw [← h2, List.eraseP_cons_of_neg h0, ← hq1]
      | none => rw [hr] at h; simp at h

theorem removeOrder_none (order_id uid : ℕ) :
    ∀ levels : List (ℚ × List Order), removeOrder order_id uid levels = none ↔
      ∀ o ∈ levelOrders levels, ¬ matchesCancel order_id uid o := by
  intro levels
  induction levels with
  | nil => simp [removeOrder, levelOrders]
  | cons l rest ih =>
    obtain ⟨p, q⟩ := l
    have hsplit : removeOrder order_id uid ((p, q) :: rest) = none ↔
        removeFromQueue order_id uid q = none ∧ removeOrder order_id uid rest = none := by
      simp only [removeOrder]
      cases hq : removeFromQueue order_id uid q with
      | some r => obtain ⟨o, q'⟩ := r; simp
      | none =>
        cases hr : removeOrder order_id uid rest with
        | some r => obtain ⟨o, rest'⟩ := r; simp
        | none => simp
    rw [hsplit, removeFromQueue_none, ih]
    simp only [levelOrders, List.flatMap_cons]
    constructor
    · rintro ⟨h1, h2⟩ o ho
      rcases List.mem_append.mp ho with ho | ho
      · exact h1 o ho
      · exact h2 o ho
    · intro h
      exact ⟨fun o ho => h o (List.mem_append.mpr (Or.inl ho)),
             fun o ho => h o (List.mem_append.mpr (Or.inr ho))⟩

theorem removeOrder_some (order_id uid : ℕ) :
    ∀ (levels : List (ℚ × List Order)) (o : Order) (levels' : List (ℚ × List Order)),
      removeOrder order_id uid levels = some (o, levels') →
      matchesCancel order_id uid o = true ∧ o ∈ levelOrders levels
        ∧ levelOrders levels'
            = (levelOrders levels).eraseP (matchesCancel order_id uid) := by
  intro levels
  induction levels with
  | nil => intro o levels' h; simp [removeOrder] at h
  | cons l rest ih =>
    intro o levels' h
    obtain ⟨p, q⟩ := l
    simp only [removeOrder] at h
    cases hq : removeFromQueue order_id uid q with
    | some r =>
      obtain ⟨o1, q'⟩ := r
      rw [hq] at h
      simp only [Option.some.injEq, Prod.mk.injEq] at h
      obtain ⟨h1, hlv⟩ := h
      rw [h1] at hq
      rcases removeFromQueue_some order_id uid q o q' hq with ⟨hm, hmem, hq'⟩
      refine ⟨hm, by simp [levelOrders, hmem], ?_⟩
      have herase : (q ++ levelOrders rest).eraseP (matchesCancel order_id uid)
          = q.eraseP (matchesCancel order_id uid) ++ levelOrders rest :=
        List.eraseP_append_left hm _ hmem
      simp only [levelOrders, List.flatMap_cons] at herase ⊢
      rw [herase, ← hlv]
      subst hq'
      split_ifs with hemp
      · simp only [List.isEmpty_iff] at hemp
        rw [hemp]
        simp [levelOrders]
      · simp [levelOrders]
    | none =>
      have hqn := (removeFromQueue_none order_id uid q).mp hq
      rw [hq] at h
      cases hr : removeOrder order_id uid rest with
      | some r =>
        obtain ⟨o1, rest'⟩ := r
        rw [hr] at h
        simp only [Option.some.injEq, Prod.mk.injEq] at h
        obtain ⟨h1, hlv⟩ := h
        rw [h1] at hr
        rcases ih o rest' hr with ⟨hm, hmem, hrest⟩
        refine ⟨hm, ?_, ?_⟩
        · simp only [levelOrders, List.flatMap_cons, List.mem_append]
          right
          simpa [levelOrders] using hmem
        · rw [← hlv]
          simp only [levelOrders, List.flatMap_cons]
          simp only [levelOrders] at hrest
          rw [hrest, List.eraseP_append_right _ hqn]
      | none => rw [hr] at h; simp at h

/-- C7: `CancelOrder(order_id, owner)`.  If no resting order has both the
requested id and owner (nonexistent, already filled, or owned by someone
else), the reply is `none` and nothing changes — no book, balance or history
mutation and no persistence intent.  If the reply is `some o`, then `o` is a
resting order with that id and owner, the book's resting orders are exactly
the original ones minus the first such match, the owner's committed asset
gets exactly the order's original reservation (`lockAmount` at the order's
own price and quantity) moved from locked back to available, and every other
(user, asset) entry and the trade history are untouched. -/
theorem claim_C7_cancel_order :
    ∀ (st : EngineState) (order_id uid : ℕ),
      ((cancelOrder st order_id uid).1 = none →
        cancelOrder st order_id uid = (none, st, [])
          ∧ ∀ o ∈ levelOrders st.orderbook.bids ++ levelOrders st.orderbook.asks,
              ¬(o.id = order_id ∧ o.user_id = some uid)) ∧
      (∀ o : Order, (cancelOrder st order_id uid).1 = some o →
        (o.id = order_id ∧ o.user_id = some uid)
          ∧ o ∈ levelOrders st.orderbook.bids ++ levelOrders st.orderbook.asks
          ∧ (levelOrders (cancelOrder st order_id uid).2.1.orderbook.bids
              ++ levelOrders (cancelOrder st order_id uid).2.1.orderbook.asks)
            = (levelOrders st.orderbook.bids
                ++ levelOrders st.orderbook.asks).eraseP (matchesCancel order_id uid)
          ∧ (cancelOrder st order_id uid).2.1.account_manager.get_balance uid
                (lockAsset o.side)
            = ((st.account_manager.get_balance uid (lockAsset o.side)).1
                  + lockAmount o.side o.price o.quantity,
               (st.account_manager.get_balance uid (lockAsset o.side)).2
                  - lockAmount o.side o.price o.quantity)
          ∧ (∀ (v : ℕ) (b : String), ¬(v = uid ∧ b = lockAsset o.side) →
              (cancelOrder st order_id uid).2.1.account_manager.get_balance v b
                = st.account_manager.get_balance v b)
          ∧ (cancelOrder st order_id uid).2.1.trades_history = st.trades_history) := by
  intro st order_id uid
  cases hb : removeOrder order_id uid st.orderbook.bids with
  | some r =>
    obtain ⟨o0, bids'⟩ := r
    rcases removeOrder_some order_id uid st.orderbook.bids o0 bids' hb with ⟨hm, hmem, hb'⟩
    constructor
    · intro hnone
      simp [cancelOrder, hb] at hnone
    · intro o hsome
      have ho : o0 = o := by simpa [cancelOrder, hb] using hsome
      subst ho
      refine ⟨by simpa [matchesCancel] using hm, by simp [hmem], ?_, ?_, ?_, ?_⟩
      · simp only [cancelOrder, hb]
        rw [List.eraseP_append_left hm _ hmem]
        simpa using hb'
      · simp [cancelOrder, hb, AccountManager.unlock_balance,
          AccountManager.get_balance, setBalance_apply]
      · intro v b hvb
        simp [cancelOrder, hb, AccountManager.unlock_balance,
          AccountManager.get_balance, setBalance_apply, hvb]
      · simp [cancelOrder, hb]
  | none =>
    have hbn := (removeOrder_none order_id uid st.orderbook.bids).mp hb
    cases ha : removeOrder order_id uid st.orderbook.asks with
    | some r =>
      obtain ⟨o0, asks'⟩ := r
      rcases removeOrder_some order_id uid st.orderbook.asks o0 asks' ha with ⟨hm, hmem, ha'⟩
      constructor
      · intro hnone
        simp [cancelOrder, hb, ha] at hnone
      · intro o hsome
        have ho : o0 = o := by simpa [cancelOrder, hb, ha] using hsome
        subst ho
        refine ⟨by simpa [matchesCancel] using hm, by simp [hmem], ?_, ?_, ?_, ?_⟩
        · simp only [cancelOrder, hb, ha]
          rw [List.eraseP_append_right _ hbn]
          simpa using ha'
        · simp [cancelOrder, hb, ha, AccountManager.unlock_balance,
            AccountManager.get_balance, setBalance_apply]
        · intro v b hvb
          simp [cancelOrder, hb, ha, AccountManager.unlock_balance,
            AccountManager.get_balance, setBalance_apply, hvb]
        · simp [cancelOrder, hb, ha]
    | none =>
      have han := (removeOrder_none order_id uid st.orderbook.asks).mp ha
      constructor
      · intro _
        refine ⟨by simp [cancelOrder, hb, ha], ?_⟩
        intro o ho hoid
        rcases List.mem_append.mp ho with ho | ho
        · exact hbn o ho (by simpa [matchesCancel] using hoid)
        · exact han o ho (by simpa [matchesCancel] using hoid)
      · intro o hsome
        simp [cancelOrder, hb, ha] at hsome

/-- Witness for C7: user 1's resting buy `5@100` (id 1) is cancelled by its
owner; the removed order is returned, and its `500` USDC reservation moves
exactly from locked back to available. -/
theorem claim_C7_cancel_order_witness :
    ((cancelOrder
        ⟨⟨[(100, [⟨1, 100, 5, Side.Buy, some 1⟩])], []⟩, [],
          (AccountManager.new).load_balance 1 "USDC" 500 500⟩ 1 1).1
      = some ⟨1, 100, 5, Side.Buy, some 1⟩)
    ∧ ((cancelOrder
        ⟨⟨[(100, [⟨1, 100, 5, Side.Buy, some 1⟩])], []⟩, [],
          (AccountManager.new).load_balance 1 "USDC" 500 500⟩ 1 1).2.1.account_manager.get_balance
          1 (lockAsset Side.Buy)
      = ((((AccountManager.new).load_balance 1 "USDC" 500 500).get_balance
            1 (lockAsset Side.Buy)).1 + lockAmount Side.Buy 100 5,
         (((AccountManager.new).load_balance 1 "USDC" 500 500).get_balance
            1 (lockAsset Side.Buy)).2 - lockAmount Side.Buy 100 5)) := by
  have hsome : (cancelOrder
      ⟨⟨[(100, [⟨1, 100, 5, Side.Buy, some 1⟩])], []⟩, [],
        (AccountManager.new).load_balance 1 "USDC" 500 500⟩ 1 1).1
      = some ⟨1, 100, 5, Side.Buy, some 1⟩ := by
    norm_num [cancelOrder, removeOrder, removeFromQueue, matchesCancel]
  refine ⟨hsome, ?_⟩
  have h := (claim_C7_cancel_order
    ⟨⟨[(100, [⟨1, 100, 5, Side.Buy, some 1⟩])], []⟩, [],
      (AccountManager.new).load_balance 1 "USDC" 500 500⟩ 1 1).2
    ⟨1, 100, 5, Side.Buy, some 1⟩ hsome
  exact h.2.2.2.1

end Badbit
